import Mathlib

set_option maxHeartbeats 1000000

namespace PaperPilot

/-! Shallow embedding of the PaperPilot backend (a RAG pipeline over uploaded
PDFs).  Text is modelled as a list of characters; the chunker, the vector
store, the Groq generation service and the RAG orchestration are translated
from backend/app.  External collaborators (the embedding model, the similarity
metric of the vector database, and the LLM itself) are abstracted as function
parameters, matching the spec, which places them out of scope. -/

/-! ## Chunker (services/pdf_processor.py, PDFProcessor) -/

/-- Python ASCII whitespace, the character class stripped by str.strip() and
matched by the regex class backslash-s in pdf_processor.py. -/
def isPyWs (c : Char) : Bool :=
  c = ' ' || c = '\t' || c = '\n' || c = '\r' || c = '\x0b' || c = '\x0c'

/-- Removal of trailing whitespace, the right half of Python str.strip(). -/
def rstripWs (l : List Char) : List Char := (l.reverse.dropWhile isPyWs).reverse

/-- Python str.strip() on a list of characters: drop leading and trailing
whitespace. -/
def pyStrip (l : List Char) : List Char := rstripWs (l.dropWhile isPyWs)

/-- Python s[-k:] for k greater than 0: the last k characters, or all of s when
k is at least the length. -/
def lastN (k : Nat) (l : List Char) : List Char := l.drop (l.length - k)

/-- Python text.split on the two-character separator of a blank line: cut at
each leftmost, non-overlapping occurrence of two newline characters. -/
def splitDoubleNewline : List Char → List (List Char)
  | [] => [[]]
  | [c] => [[c]]
  | c :: d :: rest =>
    if c = '\n' ∧ d = '\n' then [] :: splitDoubleNewline rest
    else (splitDoubleNewline (d :: rest)).modifyHead (c :: ·)

/-- A sentence terminator recognised by PDFProcessor._split_sentences. -/
def isSentEnd (c : Char) : Bool := c = '.' || c = '!' || c = '?'

/-- The scan performed by re.split with a lookbehind for a sentence terminator
followed by a whitespace run: the accumulator cur holds the current piece in
reverse; a whitespace character standing right after a terminator ends the
piece and the whole whitespace run is consumed as the separator. -/
def sentSplitAux : List Char → List Char → List (List Char)
  | [], cur => [cur.reverse]
  | c :: rest, cur =>
    if isPyWs c && (match cur with | p :: _ => isSentEnd p | [] => false) then
      cur.reverse :: sentSplitAux (rest.dropWhile isPyWs) []
    else
      sentSplitAux rest (c :: cur)
termination_by l _ => l.length
decreasing_by
  · exact Nat.lt_succ_of_le ((List.dropWhile_suffix isPyWs).length_le)
  · exact Nat.lt_succ_self _

/-- PDFProcessor._split_sentences: regex split at sentence boundaries, then
strip each piece and drop the empty ones. -/
def split_sentences (l : List Char) : List (List Char) :=
  ((sentSplitAux l []).map pyStrip).filter (fun s => !s.isEmpty)

/-- The paragraph-accumulation loop of PDFProcessor.chunk_text: greedily add
stripped paragraphs to a running buffer; when the next paragraph would push the
buffer past chunkSize, flush the stripped buffer and seed the next buffer with
the last overlap characters of the old one, a blank line, and the paragraph. -/
def paraLoop (chunkSize overlap : Nat) : List (List Char) → List Char → List (List Char)
  | [], current => if pyStrip current = [] then [] else [pyStrip current]
  | p :: rest, current =>
    let para := pyStrip p
    if para = [] then paraLoop chunkSize overlap rest current
    else if current ≠ [] ∧ chunkSize < current.length + para.length then
      pyStrip current ::
        (if 0 < overlap ∧ current ≠ [] then
          paraLoop chunkSize overlap rest (lastN overlap current ++ ['\n', '\n'] ++ para)
        else paraLoop chunkSize overlap rest para)
    else if current = [] then paraLoop chunkSize overlap rest para
    else paraLoop chunkSize overlap rest (current ++ ['\n', '\n'] ++ para)

/-- The sentence-accumulation loop of PDFProcessor.chunk_text, applied to a
paragraph-stage chunk that is still longer than chunkSize: greedily join
sentences with single spaces, flushing the stripped buffer when the next
sentence would push it past chunkSize. -/
def sentLoop (chunkSize : Nat) : List (List Char) → List Char → List (List Char)
  | [], temp => if pyStrip temp = [] then [] else [pyStrip temp]
  | s :: rest, temp =>
    if temp ≠ [] ∧ chunkSize < temp.length + s.length then
      pyStrip temp :: sentLoop chunkSize rest s
    else
      sentLoop chunkSize rest (temp ++ (if temp = [] then [] else [' ']) ++ s)

/-- The paragraph-stage chunks of PDFProcessor.chunk_text (the list named
chunks in the source, before sentence-level re-splitting). -/
def paragraphChunks (text : List Char) (chunkSize overlap : Nat) : List (List Char) :=
  paraLoop chunkSize overlap (splitDoubleNewline text) []

/-- PDFProcessor.chunk_text: empty or whitespace-only text yields no chunks;
otherwise paragraphs are accumulated with overlap, and any resulting chunk
longer than chunkSize is re-split at sentence boundaries. -/
def chunk_text (text : List Char) (chunkSize overlap : Nat) : List (List Char) :=
  if pyStrip text = [] then []
  else
    (paragraphChunks text chunkSize overlap).flatMap
      (fun ch =>
        if ch.length ≤ chunkSize then [ch]
        else sentLoop chunkSize (split_sentences ch) [])

/-! ## Upload endpoint, after text extraction (api/endpoints.py, upload_document)

PDF byte handling and the extraction library are external collaborators; the
endpoint logic that decides between rejection and indexing is a function of
the extracted text. -/

/-- Outcome of the upload endpoint once text has been extracted. -/
inductive UploadResult
  | clientError (statusCode : Nat)
  | serverError (statusCode : Nat)
  | success (indexedChunks : List (List Char))
deriving DecidableEq

/-- upload_document after extract_text: reject with 400 when the extracted
text is empty or whitespace-only, raise 500 when chunking yields no chunks,
and otherwise hand the chunks to the RAG service for indexing. -/
def uploadAfterExtract (text : List Char) : UploadResult :=
  if pyStrip text = [] then .clientError 400
  else
    let chunks := chunk_text text 1000 200
    if chunks = [] then .serverError 500
    else .success chunks

/-! ## Vector store (rag/vector_store.py, VectorStore)

The ChromaDB client and the sentence-transformer embedding model are external
collaborators.  A stored chunk keeps its text and metadata; the similarity
ranking of a query against stored chunks is abstracted as a function
parameter, and the store keeps the nearest min(topK, count) of its output,
mirroring the n_results argument built from collection.count(). -/

/-- A chunk as stored in a ChromaDB collection: document text plus metadata. -/
structure StoredChunk where
  content : List Char
  metadata : List (String × String)
deriving DecidableEq

/-- The VectorStore state: the in-process cache self.collections (document ids
holding a cached collection handle) and the persistent client collections. -/
structure VSState where
  cache : List String
  client : List (String × List StoredChunk)
deriving DecidableEq

/-- Association-list lookup by document id. -/
def alookup : List (String × α) → String → Option α
  | [], _ => none
  | (k, v) :: rest, id => if k = id then some v else alookup rest id

/-- Removal of the collection named id, as performed by the client of the
vector database. -/
def eraseKey : List (String × α) → String → List (String × α)
  | [], _ => []
  | (k, v) :: rest, id => if k = id then rest else (k, v) :: eraseKey rest id

/-- VectorStore.create_collection: get the cached collection for a document,
else fetch the existing client collection, else create a fresh empty one;
returns the updated state and the collection contents. -/
def create_collection (st : VSState) (id : String) : VSState × List StoredChunk :=
  if id ∈ st.cache then (st, (alookup st.client id).getD [])
  else
    match alookup st.client id with
    | some entries => (⟨id :: st.cache, st.client⟩, entries)
    | none => (⟨id :: st.cache, (id, []) :: st.client⟩, [])

/-- VectorStore.search: get or create the collection, embed the query, and
return the nearest min(topK, count) stored chunks under the abstract
similarity ranking. -/
def vsSearch (rank : String → List StoredChunk → List StoredChunk)
    (st : VSState) (id : String) (query : String) (topK : Nat) :
    VSState × List StoredChunk :=
  let p := create_collection st id
  (p.1, (rank query p.2).take (min topK p.2.length))

/-- VectorStore.delete_document: drop the cached handle, then ask the client
to delete the collection; the client raises when no such collection exists, in
which case False is returned (with the cache entry already gone). -/
def delete_document (st : VSState) (id : String) : VSState × Bool :=
  let cacheAfter := st.cache.erase id
  match alookup st.client id with
  | some _ => (⟨cacheAfter, eraseKey st.client id⟩, true)
  | none => (⟨cacheAfter, st.client⟩, false)

/-- The delete endpoint (api/endpoints.py, delete_document): 204 on success,
404 when the vector store reports failure. -/
def delete_endpoint (st : VSState) (id : String) : VSState × Nat :=
  let r := delete_document st id
  (r.1, if r.2 then 204 else 404)

/-- Well-formedness of the in-process store: every cached document id has a
client collection, and client collection names are unique.  Both hold in the
real system, where a handle is cached only after a client get or create
succeeds, delete always removes the cache entry, and ChromaDB enforces unique
collection names. -/
def WFStore (st : VSState) : Prop :=
  (∀ id, id ∈ st.cache → (alookup st.client id).isSome) ∧
    (st.client.map Prod.fst).Nodup

/-! ## Groq generation service (rag/groq_service.py, GroqService) -/

/-- models/schemas.py ExplanationLevel. -/
inductive ExplanationLevel
  | beginner
  | student
  | researcher
deriving DecidableEq

/-- A chat message: models/schemas.py ChatMessage and the role/content dicts
built in groq_service.py. -/
structure Message where
  role : String
  content : String
deriving DecidableEq

/-- An apostrophe character, spelled by code point. -/
def apoS : String := String.singleton (Char.ofNat 39)

/-- The common grounding instruction shared by every explanation level
(GroqService._get_system_prompt, base_prompt). -/
def basePrompt : String :=
  "You are an expert AI research paper explainer assistant. Your role is to help users understand research papers by providing accurate, well-structured explanations based ONLY on the provided context from the paper.\n\nCRITICAL RULES:\n1. ONLY use information from the provided context chunks. Do NOT make up or hallucinate information.\n2. If the context doesn" ++ apoS ++ "t contain enough information to answer a question, clearly state that the information is not available in the provided context.\n3. Always cite specific sections or pages when possible using references from the context.\n4. Be precise and accurate - maintain academic rigor.\n5. If you" ++ apoS ++ "re unsure about something, say so rather than guessing.\n"

/-- The level-specific register appended to the base prompt
(GroqService._get_system_prompt, level_specific). -/
def levelSpecific : ExplanationLevel → String
  | .beginner =>
    "\nEXPLANATION STYLE: BEGINNER LEVEL\n- Use simple, everyday language\n- Avoid jargon or explain it when necessary\n- Use analogies and examples\n- Break down complex concepts into smaller parts\n- Focus on \"what\" and \"why\" rather than technical details\n- Make it accessible to someone with no background in the field\n"
  | .student =>
    "\nEXPLANATION STYLE: STUDENT LEVEL\n- Use appropriate academic terminology but define key terms\n- Provide context and background when needed\n- Explain methodology and approach\n- Connect concepts to broader knowledge\n- Suitable for undergraduate or graduate students\n- Balance simplicity with technical accuracy\n"
  | .researcher =>
    "\nEXPLANATION STYLE: RESEARCHER LEVEL\n- Use precise technical and academic terminology\n- Assume familiarity with the field\n- Focus on methodology, implementation details, and technical nuances\n- Discuss implications, limitations, and connections to other work\n- Provide implementation insights and technical details\n- Suitable for researchers and practitioners in the field\n"

/-- GroqService._get_system_prompt: base grounding prompt plus the
level-specific register. -/
def get_system_prompt (level : ExplanationLevel) : String :=
  basePrompt ++ levelSpecific level

/-- GroqService._format_context: number the retrieved chunks into a context
block, annotating each with its page metadata when present. -/
def format_context (chunks : List StoredChunk) : String :=
  if chunks = [] then "No relevant context found."
  else
    String.intercalate "\n"
      ((List.range chunks.length).flatMap
        (fun i =>
          let chunk := chunks.getD i ⟨[], []⟩
          let pageInfo := (alookup chunk.metadata "page").getD ""
          ["[Context " ++ toString (i + 1) ++ "]"]
            ++ (if pageInfo ≠ "" then ["Source: " ++ pageInfo] else [])
            ++ [String.mk chunk.content] ++ [""]))

/-- The final user turn of GroqService.generate_answer, embedding the
formatted context and the question. -/
def userMessage (context : String) (question : String) : String :=
  "Based on the following context from a research paper, please answer the question.\n\nCONTEXT FROM PAPER:\n"
    ++ context ++ "\n\nQUESTION: " ++ question
    ++ "\n\nPlease provide a clear, accurate answer based only on the context provided above."

/-- The message sequence built by GroqService.generate_answer: the system
prompt, then the last 5 history turns, then the user turn with context and
question. -/
def buildMessages (question : String) (contextChunks : List StoredChunk)
    (level : ExplanationLevel) (history : List Message) : List Message :=
  ⟨"system", get_system_prompt level⟩ ::
    (history.drop (history.length - 5)
      ++ [⟨"user", userMessage (format_context contextChunks) question⟩])

/-- One request issued to the LLM provider: model name, sampling parameters
and message sequence. -/
structure LLMCall where
  model : String
  temperature : ℚ
  maxTokens : Nat
  topP : ℚ
  messages : List Message
deriving DecidableEq

/-- self.model of GroqService. -/
def primaryModel : String := "llama-3.3-70b-versatile"

/-- self.fallback_model of GroqService. -/
def fallbackModel : String := "llama-3.1-8b-instant"

/-- GroqService.generate_answer, with the provider API abstracted as the
function call; alongside the answer, the trace of requests actually issued is
returned.  The primary model is tried first with temperature 0.3, 2048 max
tokens and top-p 0.9; on failure, the distinct fallback model is tried once
with identical parameters and messages; if it also fails, the failure is
raised carrying the primary error. -/
def generate_answer (call : LLMCall → Except String String) (question : String)
    (contextChunks : List StoredChunk) (level : ExplanationLevel)
    (history : List Message) : Except String String × List LLMCall :=
  let messages := buildMessages question contextChunks level history
  let primaryCall : LLMCall := ⟨primaryModel, 3/10, 2048, 9/10, messages⟩
  match call primaryCall with
  | .ok answer => (.ok answer, [primaryCall])
  | .error e =>
    if primaryModel ≠ fallbackModel then
      let fbCall : LLMCall := ⟨fallbackModel, 3/10, 2048, 9/10, messages⟩
      match call fbCall with
      | .ok answer => (.ok answer, [primaryCall, fbCall])
      | .error _ => (.error ("Failed to generate answer: " ++ e), [primaryCall, fbCall])
    else (.error ("Failed to generate answer: " ++ e), [primaryCall])

/-! ## RAG orchestration (services/rag_service.py, RAGService.query) -/

/-- Outcome of RAGService.query: a returned answer with sources, or a raised
generation failure.  In both cases the trace of LLM requests is kept, so that
a query that never reaches the generator carries an empty trace. -/
inductive QueryOutcome
  | ok (answer : String) (sources : List String) (calls : List LLMCall)
  | err (msg : String) (calls : List LLMCall)
deriving DecidableEq

/-- The fixed answer returned when retrieval finds nothing. -/
def noRelevantMsg : String :=
  "I couldn" ++ apoS ++ "t find relevant information in the document to answer your question. Please try rephrasing or asking about a different aspect of the paper."

/-- The ellipsis appended to each source snippet. -/
def ellipsis : String := "..."

/-- RAGService.query: retrieve the top chunks for the question; when none are
found, short-circuit with the fixed no-relevant-information answer and no
sources, issuing no LLM request; otherwise generate an answer and derive the
sources as the first 200 characters of each of the top 3 retrieved chunks,
each with an ellipsis appended. -/
def ragQuery (call : LLMCall → Except String String)
    (rank : String → List StoredChunk → List StoredChunk) (topK : Nat)
    (st : VSState) (documentId : String) (question : String)
    (level : ExplanationLevel) (history : List Message) :
    VSState × QueryOutcome :=
  let s := vsSearch rank st documentId question topK
  if s.2 = [] then (s.1, .ok noRelevantMsg [] [])
  else
    match generate_answer call question s.2 level history with
    | (.ok answer, calls) =>
      let sources := (s.2.take 3).map
        (fun chunk => String.mk (chunk.content.take 200) ++ ellipsis)
      (s.1, .ok answer sources calls)
    | (.error e, calls) => (s.1, .err e calls)

/-! ## Concrete inputs used by witnesses and counterexamples -/

/-- A sentence of exactly 600 characters. -/
def cexS1 : List Char := List.replicate 599 'a' ++ ['.']

/-- A sentence of exactly 400 characters. -/
def cexS2 : List Char := List.replicate 399 'b' ++ ['.']

/-- A 1001-character single-paragraph text of two sentences (600 and 400
characters) separated by one space.  The paragraph stage keeps it whole; the
sentence stage joins the two sentences with a space, producing a single
1001-character chunk that is not itself a single sentence. -/
def cexC1 : List Char := cexS1 ++ [' '] ++ cexS2

/-- A list of characters containing at least one non-whitespace character. -/
def hasInk (l : List Char) : Prop := ∃ c ∈ l, isPyWs c = false

/-! ## Basic facts about stripping and the store -/

lemma pyStrip_nil : pyStrip [] = [] := rfl

/-- A non-whitespace member of a list survives dropping leading whitespace. -/
lemma mem_dropWhile_of_ink {c : Char} {l : List Char} (hc : c ∈ l)
    (hw : isPyWs c = false) : c ∈ l.dropWhile isPyWs := by
  have hsplit := List.takeWhile_append_dropWhile isPyWs l
  rcases List.mem_append.mp (by rw [hsplit]; exact hc) with h | h
  · have := List.mem_takeWhile_imp h
    rw [this] at hw
    cases hw
  · exact h

/-- A list with a non-whitespace character strips to a non-empty list. -/
lemma pyStrip_ne_nil_of_ink {l : List Char} (h : hasInk l) : pyStrip l ≠ [] := by
  obtain ⟨c, hc, hw⟩ := h
  intro hnil
  unfold pyStrip rstripWs at hnil
  rw [List.reverse_eq_nil_iff, List.dropWhile_eq_nil_iff] at hnil
  have hcA : c ∈ l.dropWhile isPyWs := mem_dropWhile_of_ink hc hw
  have := hnil c (List.mem_reverse.mpr hcA)
  rw [this] at hw
  cases hw

/-- The stripped list is a prefix of the left-stripped list. -/
lemma pyStrip_prefix_dropWhile (l : List Char) :
    pyStrip l <+: l.dropWhile isPyWs := by
  unfold pyStrip rstripWs
  have hsuf := List.dropWhile_suffix (l := (l.dropWhile isPyWs).reverse) isPyWs
  have h2 := hsuf.reverse
  rwa [List.reverse_reverse] at h2

/-- A non-empty stripped list has ink: its head character is not whitespace. -/
lemma hasInk_pyStrip_of_ne_nil {l : List Char} (h : pyStrip l ≠ []) :
    hasInk (pyStrip l) := by
  obtain ⟨h0, t0, hcons⟩ : ∃ h0 t0, pyStrip l = h0 :: t0 := by
    cases hx : pyStrip l with
    | nil => exact absurd hx h
    | cons h0 t0 => exact ⟨h0, t0, rfl⟩
  obtain ⟨t, ht⟩ := pyStrip_prefix_dropWhile l
  have hA : l.dropWhile isPyWs = h0 :: (t0 ++ t) := by
    rw [← ht, hcons]
    rfl
  have hne : l.dropWhile isPyWs ≠ [] := by rw [hA]; simp
  have hhead := List.head_dropWhile_not isPyWs l hne
  have hh0 : (l.dropWhile isPyWs).head hne = h0 := by simp [hA]
  rw [hh0] at hhead
  exact ⟨h0, by rw [hcons]; exact List.mem_cons_self _ _, hhead⟩

/-- The stripped list is a sublist, so its members are members. -/
lemma pyStrip_sublist (l : List Char) : List.Sublist (pyStrip l) l :=
  (pyStrip_prefix_dropWhile l).sublist.trans (List.dropWhile_suffix isPyWs).sublist

/-- A list strips to a non-empty list exactly when it has ink. -/
lemma pyStrip_ne_nil_iff {l : List Char} : pyStrip l ≠ [] ↔ hasInk l := by
  constructor
  · intro h
    obtain ⟨c, hc, hw⟩ := hasInk_pyStrip_of_ne_nil h
    exact ⟨c, List.Sublist.mem hc (pyStrip_sublist l), hw⟩
  · exact pyStrip_ne_nil_of_ink

lemma pyStrip_eq_nil_of_all_ws {l : List Char} (h : ∀ c ∈ l, isPyWs c = true) :
    pyStrip l = [] := by
  unfold pyStrip rstripWs
  rw [List.dropWhile_eq_nil_iff.mpr h]
  rfl

/-- The second component of vsSearch is empty whenever the collection for the
document id is missing or empty. -/
lemma vsSearch_nil (rank : String → List StoredChunk → List StoredChunk)
    (st : VSState) (d : String) (q : String) (topK : Nat)
    (h : alookup st.client d = none ∨ alookup st.client d = some []) :
    (vsSearch rank st d q topK).2 = [] := by
  unfold vsSearch create_collection
  rcases h with h | h <;> by_cases hc : d ∈ st.cache <;>
    simp [hc, h, Nat.min_zero]

/-- RAGService.query short-circuits with the fixed answer when the collection
for the document id is missing or empty: empty sources and an empty trace of
LLM requests. -/
lemma ragQuery_noInfo (call : LLMCall → Except String String)
    (rank : String → List StoredChunk → List StoredChunk) (topK : Nat)
    (st : VSState) (d : String) (q : String) (lv : ExplanationLevel)
    (hist : List Message)
    (h : alookup st.client d = none ∨ alookup st.client d = some []) :
    (ragQuery call rank topK st d q lv hist).2 = .ok noRelevantMsg [] [] := by
  unfold ragQuery
  simp [vsSearch_nil rank st d q topK h]

/-! ## Non-whitespace characters survive splitting, and chunking a text with
ink yields at least one chunk -/

/-- Paragraph splitting returns at least one piece (bounded-length helper). -/
lemma splitDoubleNewline_ne_nil_aux :
    ∀ (n : Nat) (l : List Char), l.length ≤ n → splitDoubleNewline l ≠ [] := by
  intro n
  induction n with
  | zero =>
    intro l hl
    rw [List.length_eq_zero.mp (Nat.le_zero.mp hl)]
    simp [splitDoubleNewline]
  | succ n ih =>
    intro l hl
    cases l with
    | nil => simp [splitDoubleNewline]
    | cons c l2 =>
      cases l2 with
      | nil => simp [splitDoubleNewline]
      | cons d rest =>
        rw [splitDoubleNewline]
        split
        · simp
        · intro hmod
          rcases hx : splitDoubleNewline (d :: rest) with _ | ⟨p0, ps⟩
          · exact ih (d :: rest) (by simp at hl ⊢; omega) hx
          · rw [hx] at hmod
            simp at hmod

/-- Paragraph splitting returns at least one piece. -/
lemma splitDoubleNewline_ne_nil (l : List Char) : splitDoubleNewline l ≠ [] :=
  splitDoubleNewline_ne_nil_aux l.length l le_rfl

/-- Every non-whitespace character of the text lands in some paragraph piece
(bounded-length helper). -/
lemma mem_splitDoubleNewline_aux {c : Char} (hw : isPyWs c = false) :
    ∀ (n : Nat) (l : List Char), l.length ≤ n → c ∈ l →
      ∃ p ∈ splitDoubleNewline l, c ∈ p := by
  intro n
  induction n with
  | zero =>
    intro l hl hc
    rw [List.length_eq_zero.mp (Nat.le_zero.mp hl)] at hc
    cases hc
  | succ n ih =>
    intro l hl hc
    cases l with
    | nil => cases hc
    | cons a l2 =>
      cases l2 with
      | nil =>
        rcases List.mem_singleton.mp hc with rfl
        exact ⟨[c], by simp [splitDoubleNewline], List.mem_singleton_self c⟩
      | cons b rest =>
        rw [splitDoubleNewline]
        by_cases hab : a = '\n' ∧ b = '\n'
        · rw [if_pos hab]
          have hcrest : c ∈ rest := by
            rcases hc with _ | ⟨_, hc2⟩
            · rw [hab.1] at hw; cases hw
            · rcases hc2 with _ | ⟨_, hc3⟩
              · rw [hab.2] at hw; cases hw
              · exact hc3
          obtain ⟨p, hp, hcp⟩ := ih rest (by simp at hl ⊢; omega) hcrest
          exact ⟨p, List.mem_cons_of_mem _ hp, hcp⟩
        · rw [if_neg hab]
          rcases hx : splitDoubleNewline (b :: rest) with _ | ⟨p0, ps⟩
          · exact absurd hx (splitDoubleNewline_ne_nil (b :: rest))
          · rcases hc with _ | ⟨_, hc2⟩
            · exact ⟨c :: p0, by simp, List.mem_cons_self _ _⟩
            · obtain ⟨p, hp, hcp⟩ := ih (b :: rest) (by simp at hl ⊢; omega) hc2
              rw [hx] at hp
              rcases hp with _ | ⟨_, hp2⟩
              · exact ⟨a :: p0, by simp, List.mem_cons_of_mem _ hcp⟩
              · exact ⟨p, by simp; right; exact hp2, hcp⟩

/-- Every non-whitespace character of the text lands in some paragraph piece. -/
lemma mem_splitDoubleNewline {c : Char} (hw : isPyWs c = false)
    (l : List Char) (hc : c ∈ l) : ∃ p ∈ splitDoubleNewline l, c ∈ p :=
  mem_splitDoubleNewline_aux hw l.length l le_rfl hc

/-- Every non-whitespace character of the scanned text or of the current
accumulator lands in some piece produced by the sentence-splitting scan
(bounded-length helper). -/
lemma mem_sentSplitAux_aux {c : Char} (hw : isPyWs c = false) :
    ∀ (n : Nat) (l : List Char), l.length ≤ n → ∀ cur : List Char,
      c ∈ l ∨ c ∈ cur → ∃ p ∈ sentSplitAux l cur, c ∈ p := by
  intro n
  induction n with
  | zero =>
    intro l hl cur hc
    rw [List.length_eq_zero.mp (Nat.le_zero.mp hl)] at hc ⊢
    rcases hc with hc | hc
    · cases hc
    · exact ⟨cur.reverse, by rw [sentSplitAux]; exact List.mem_singleton_self _,
        List.mem_reverse.mpr hc⟩
  | succ n ih =>
    intro l hl cur hc
    cases l with
    | nil =>
      rcases hc with hc | hc
      · cases hc
      · exact ⟨cur.reverse, by rw [sentSplitAux]; exact List.mem_singleton_self _,
          List.mem_reverse.mpr hc⟩
    | cons a rest =>
      rw [sentSplitAux.eq_def]
      simp only []
      cases cur with
      | nil =>
        rw [if_neg (by simp)]
        apply ih rest (by simp at hl ⊢; omega) [a]
        rcases hc with hc | hc
        · rcases hc with _ | ⟨_, hc2⟩
          · exact Or.inr (List.mem_cons_self _ _)
          · exact Or.inl hc2
        · cases hc
      | cons p0 curt =>
        by_cases hcond : (isPyWs a && isSentEnd p0) = true
        · rw [if_pos hcond]
          have hws_a : isPyWs a = true := (Bool.and_eq_true_iff.mp hcond).1
          rcases hc with hc | hc
          · rcases hc with _ | ⟨_, hc2⟩
            · rw [hws_a] at hw; cases hw
            · have hdrop : c ∈ rest.dropWhile isPyWs := mem_dropWhile_of_ink hc2 hw
              obtain ⟨p, hp, hcp⟩ := ih (rest.dropWhile isPyWs)
                (by
                  have := (List.dropWhile_suffix (l := rest) isPyWs).length_le
                  simp at hl
                  omega)
                [] (Or.inl hdrop)
              exact ⟨p, List.mem_cons_of_mem _ hp, hcp⟩
          · exact ⟨(p0 :: curt).reverse, List.mem_cons_self _ _,
              List.mem_reverse.mpr hc⟩
        · rw [if_neg hcond]
          apply ih rest (by simp at hl ⊢; omega) (a :: p0 :: curt)
          rcases hc with hc | hc
          · rcases hc with _ | ⟨_, hc2⟩
            · exact Or.inr (List.mem_cons_self _ _)
            · exact Or.inl hc2
          · exact Or.inr (List.mem_cons_of_mem _ hc)

/-- Every non-whitespace character of the scanned text or of the current
accumulator lands in some piece produced by the sentence-splitting scan. -/
lemma mem_sentSplitAux {c : Char} (hw : isPyWs c = false)
    (l cur : List Char) (hc : c ∈ l ∨ c ∈ cur) :
    ∃ p ∈ sentSplitAux l cur, c ∈ p :=
  mem_sentSplitAux_aux hw l.length l le_rfl cur hc

/-- A paragraph with ink has at least one sentence that strips non-empty. -/
lemma split_sentences_ink {l : List Char} (h : hasInk l) :
    ∃ s ∈ split_sentences l, pyStrip s ≠ [] := by
  obtain ⟨c, hc, hw⟩ := h
  obtain ⟨p, hp, hcp⟩ := mem_sentSplitAux hw l [] (Or.inl hc)
  have hpne : pyStrip p ≠ [] := pyStrip_ne_nil_of_ink ⟨c, hcp, hw⟩
  refine ⟨pyStrip p, ?_, ?_⟩
  · unfold split_sentences
    apply List.mem_filter.mpr
    refine ⟨List.mem_map_of_mem pyStrip hp, ?_⟩
    simp [List.isEmpty_iff, hpne]
  · exact pyStrip_ne_nil_of_ink (hasInk_pyStrip_of_ne_nil hpne)

/-- The sentence loop emits at least one chunk when some pending sentence (or
the current buffer) strips non-empty. -/
lemma sentLoop_ne_nil (cs : Nat) :
    ∀ (sents : List (List Char)) (temp : List Char),
      (∃ s ∈ sents, pyStrip s ≠ []) ∨ pyStrip temp ≠ [] →
      sentLoop cs sents temp ≠ [] := by
  intro sents
  induction sents with
  | nil =>
    intro temp h
    rcases h with ⟨s, hs, _⟩ | h
    · cases hs
    · rw [sentLoop, if_neg h]
      simp
  | cons s rest ih =>
    intro temp h
    rw [sentLoop]
    by_cases hfl : temp ≠ [] ∧ cs < temp.length + s.length
    · rw [if_pos hfl]; simp
    · rw [if_neg hfl]
      apply ih
      rcases h with ⟨s2, hs2, hstrip⟩ | h
      · rcases hs2 with _ | ⟨_, hs3⟩
        · -- the head sentence: its ink is in the new buffer
          right
          obtain ⟨c, hc, hw⟩ := pyStrip_ne_nil_iff.mp hstrip
          exact pyStrip_ne_nil_of_ink ⟨c, by simp [hc], hw⟩
        · exact Or.inl ⟨s2, hs3, hstrip⟩
      · right
        obtain ⟨c, hc, hw⟩ := pyStrip_ne_nil_iff.mp h
        exact pyStrip_ne_nil_of_ink ⟨c, by simp [hc], hw⟩

/-- Every chunk emitted by the paragraph loop has ink, provided the incoming
buffer is empty or has ink. -/
lemma paraLoop_chunks_ink (cs ov : Nat) :
    ∀ (ps : List (List Char)) (current : List Char),
      current = [] ∨ hasInk current →
      ∀ ch ∈ paraLoop cs ov ps current, hasInk ch := by
  intro ps
  induction ps with
  | nil =>
    intro current _ ch hch
    rw [paraLoop] at hch
    split at hch
    · cases hch
    · rcases List.mem_singleton.mp hch with rfl
      exact hasInk_pyStrip_of_ne_nil (by assumption)
  | cons p rest ih =>
    intro current hcur ch hch
    rw [paraLoop] at hch
    by_cases h1 : pyStrip p = []
    · rw [if_pos h1] at hch
      exact ih current hcur ch hch
    · rw [if_neg h1] at hch
      have hpara : hasInk (pyStrip p) :=
        hasInk_pyStrip_of_ne_nil h1
      by_cases h2 : current ≠ [] ∧ cs < current.length + (pyStrip p).length
      · rw [if_pos h2] at hch
        have hcur2 : hasInk current := by
          rcases hcur with rfl | hcur
          · exact absurd rfl h2.1
          · exact hcur
        rcases hch with _ | ⟨_, hch2⟩
        · exact hasInk_pyStrip_of_ne_nil (pyStrip_ne_nil_of_ink hcur2)
        · by_cases h3 : 0 < ov ∧ current ≠ []
          · rw [if_pos h3] at hch2
            apply ih _ _ ch hch2
            right
            obtain ⟨c, hc, hw⟩ := hpara
            exact ⟨c, by simp [hc], hw⟩
          · rw [if_neg h3] at hch2
            exact ih _ (Or.inr hpara) ch hch2
      · rw [if_neg h2] at hch
        by_cases h3 : current = []
        · rw [if_pos h3] at hch
          exact ih _ (Or.inr hpara) ch hch
        · rw [if_neg h3] at hch
          apply ih _ _ ch hch
          right
          obtain ⟨c, hc, hw⟩ := hpara
          exact ⟨c, by simp [hc], hw⟩

/-- The paragraph loop emits at least one chunk when some pending paragraph
(or the current buffer) has ink. -/
lemma paraLoop_ne_nil (cs ov : Nat) :
    ∀ (ps : List (List Char)) (current : List Char),
      (∃ p ∈ ps, hasInk p) ∨ hasInk current →
      paraLoop cs ov ps current ≠ [] := by
  intro ps
  induction ps with
  | nil =>
    intro current h
    rcases h with ⟨p, hp, _⟩ | h
    · cases hp
    · rw [paraLoop, if_neg (pyStrip_ne_nil_of_ink h)]
      simp
  | cons p rest ih =>
    intro current h
    rw [paraLoop]
    by_cases h1 : pyStrip p = []
    · rw [if_pos h1]
      apply ih
      rcases h with ⟨p2, hp2, hink2⟩ | h
      · rcases hp2 with _ | ⟨_, hp3⟩
        · exact absurd (pyStrip_ne_nil_of_ink hink2) (by simp [h1])
        · exact Or.inl ⟨p2, hp3, hink2⟩
      · exact Or.inr h
    · rw [if_neg h1]
      by_cases h2 : current ≠ [] ∧ cs < current.length + (pyStrip p).length
      · rw [if_pos h2]; simp
      · rw [if_neg h2]
        have hpara : hasInk (pyStrip p) := hasInk_pyStrip_of_ne_nil h1
        by_cases h3 : current = []
        · rw [if_pos h3]
          exact ih _ (Or.inr hpara)
        · rw [if_neg h3]
          apply ih
          right
          obtain ⟨c, hc, hw⟩ := hpara
          exact ⟨c, by simp [hc], hw⟩

/-- Chunking a text that strips non-empty yields at least one chunk, for every
chunk size and overlap: the 500-path of the upload endpoint for a text that
passed the emptiness check is unreachable. -/
lemma chunk_text_ne_nil (text : List Char) (cs ov : Nat)
    (h : pyStrip text ≠ []) : chunk_text text cs ov ≠ [] := by
  unfold chunk_text
  rw [if_neg h]
  obtain ⟨c, hc, hw⟩ := pyStrip_ne_nil_iff.mp h
  obtain ⟨p, hp, hcp⟩ := mem_splitDoubleNewline hw text hc
  have hchunks : paragraphChunks text cs ov ≠ [] :=
    paraLoop_ne_nil cs ov _ [] (Or.inl ⟨p, hp, c, hcp, hw⟩)
  obtain ⟨ch0, chrest, hch0⟩ : ∃ ch0 chrest,
      paragraphChunks text cs ov = ch0 :: chrest := by
    cases hx : paragraphChunks text cs ov with
    | nil => exact absurd hx hchunks
    | cons a b => exact ⟨a, b, rfl⟩
  have hink0 : hasInk ch0 :=
    paraLoop_chunks_ink cs ov _ [] (Or.inl rfl) ch0
      (by rw [← paragraphChunks, hch0]; exact List.mem_cons_self _ _)
  have himg : (if ch0.length ≤ cs then [ch0]
      else sentLoop cs (split_sentences ch0) []) ≠ [] := by
    split
    · simp
    · exact sentLoop_ne_nil cs _ [] (Or.inl (split_sentences_ink hink0))
  obtain ⟨y, hy⟩ : ∃ y, y ∈ (if ch0.length ≤ cs then [ch0]
      else sentLoop cs (split_sentences ch0) []) := by
    cases hx : (if ch0.length ≤ cs then [ch0]
        else sentLoop cs (split_sentences ch0) []) with
    | nil => exact absurd hx himg
    | cons a b => exact ⟨a, List.mem_cons_self _ _⟩
  apply List.ne_nil_of_mem
  exact List.mem_flatMap.mpr ⟨ch0, by rw [hch0]; exact List.mem_cons_self _ _, hy⟩

/-- Every request issued by generate_answer carries the message sequence built
by buildMessages. -/
lemma generate_answer_calls_messages (call : LLMCall → Except String String)
    (q : String) (ch : List StoredChunk) (lv : ExplanationLevel)
    (hist : List Message) (c : LLMCall)
    (hc : c ∈ (generate_answer call q ch lv hist).2) :
    c.messages = buildMessages q ch lv hist := by
  simp only [generate_answer] at hc
  cases h1 : call ⟨primaryModel, 3/10, 2048, 9/10, buildMessages q ch lv hist⟩ with
  | ok a =>
    rw [h1] at hc
    simp only [List.mem_singleton] at hc
    subst hc; rfl
  | error e =>
    rw [h1] at hc
    simp only [] at hc
    rw [if_pos (show primaryModel ≠ fallbackModel by decide)] at hc
    cases h2 : call ⟨fallbackModel, 3/10, 2048, 9/10, buildMessages q ch lv hist⟩ with
    | ok a =>
      rw [h2] at hc
      simp only [List.mem_cons, List.mem_singleton, List.not_mem_nil, or_false] at hc
      rcases hc with rfl | rfl <;> rfl
    | error e2 =>
      rw [h2] at hc
      simp only [List.mem_cons, List.mem_singleton, List.not_mem_nil, or_false] at hc
      rcases hc with rfl | rfl <;> rfl

/-- Lookup misses when the key is absent from the key list. -/
lemma alookup_eq_none_of_not_mem {α : Type} :
    ∀ (l : List (String × α)) (id : String),
      id ∉ l.map Prod.fst → alookup l id = none := by
  intro l
  induction l with
  | nil => intro id _; rfl
  | cons kv rest ih =>
    intro id hid
    obtain ⟨k, v⟩ := kv
    rw [alookup, if_neg (fun hk => hid (by simp [hk]))]
    exact ih id (fun h => hid (by simp; right; simpa using h))

/-- With unique keys, erasing a key makes its lookup miss. -/
lemma alookup_eraseKey_self {α : Type} :
    ∀ (l : List (String × α)) (id : String),
      (l.map Prod.fst).Nodup → alookup (eraseKey l id) id = none := by
  intro l
  induction l with
  | nil => intro id _; rfl
  | cons kv rest ih =>
    intro id hnd
    obtain ⟨k, v⟩ := kv
    simp only [List.map_cons, List.nodup_cons] at hnd
    rw [eraseKey]
    by_cases hk : k = id
    · rw [if_pos hk]
      subst hk
      exact alookup_eq_none_of_not_mem rest k hnd.1
    · rw [if_neg hk, alookup, if_neg hk]
      exact ih id hnd.2

/-! ## Claim theorems -/

/-- Claim C9: for every input text that is empty or consists only of
whitespace, chunk_text returns an empty chunk sequence (for any chunk size and
overlap). -/
theorem chunk_text_ws_only_nil (text : List Char) (chunkSize overlap : Nat)
    (h : ∀ c ∈ text, isPyWs c = true) :
    chunk_text text chunkSize overlap = [] := by
  unfold chunk_text
  rw [if_pos (pyStrip_eq_nil_of_all_ws h)]

/-- Witness for C9 at a concrete whitespace-only input. -/
theorem chunk_text_ws_only_nil_witness :
    chunk_text [' ', '\n', '\t'] 1000 200 = [] :=
  chunk_text_ws_only_nil [' ', '\n', '\t'] 1000 200 (by decide)

/-- Claim C3: querying a document id whose index holds zero chunks (missing
or empty collection) returns the fixed no-relevant-information answer with an
empty sources list, and no LLM request is issued (the trace of generator
calls is empty). -/
theorem ragQuery_zero_chunks_noInfo (call : LLMCall → Except String String)
    (rank : String → List StoredChunk → List StoredChunk) (topK : Nat)
    (st : VSState) (d : String) (q : String) (lv : ExplanationLevel)
    (hist : List Message)
    (h : alookup st.client d = none ∨ alookup st.client d = some []) :
    (ragQuery call rank topK st d q lv hist).2 = .ok noRelevantMsg [] [] :=
  ragQuery_noInfo call rank topK st d q lv hist h

/-- Witness for C3 at a concrete store with no collection for the queried
document id. -/
theorem ragQuery_zero_chunks_noInfo_witness :
    (ragQuery (fun _ => .ok "answer") (fun _ cs => cs) 5 ⟨[], []⟩ "doc" "q"
        .student []).2 = .ok noRelevantMsg [] [] :=
  ragQuery_zero_chunks_noInfo (fun _ => .ok "answer") (fun _ cs => cs) 5
    ⟨[], []⟩ "doc" "q" .student [] (Or.inl rfl)

/-- Claim C4: when retrieval returns a non-empty chunk list and the query
returns normally, the sources list is exactly the first at most 3 retrieved
chunks, each truncated to its first 200 characters with an ellipsis appended —
hence at most 3 entries, each of length at most 203 characters. -/
theorem ragQuery_sources (call : LLMCall → Except String String)
    (rank : String → List StoredChunk → List StoredChunk) (topK : Nat)
    (st : VSState) (d : String) (q : String) (lv : ExplanationLevel)
    (hist : List Message)
    (hne : (vsSearch rank st d q topK).2 ≠ [])
    (a : String) (srcs : List String) (calls : List LLMCall)
    (hok : (ragQuery call rank topK st d q lv hist).2 = .ok a srcs calls) :
    srcs = ((vsSearch rank st d q topK).2.take 3).map
        (fun chunk => String.mk (chunk.content.take 200) ++ ellipsis)
      ∧ srcs.length ≤ 3 ∧ ∀ src ∈ srcs, src.length ≤ 203 := by
  simp only [ragQuery] at hok
  rw [if_neg hne] at hok
  cases hg : generate_answer call q (vsSearch rank st d q topK).2 lv hist with
  | mk res tcalls =>
    rw [hg] at hok
    cases res with
    | ok ans =>
      simp only [QueryOutcome.ok.injEq] at hok
      obtain ⟨-, hs, -⟩ := hok
      subst hs
      refine ⟨rfl, ?_, ?_⟩
      · rw [List.length_map]
        exact List.length_take_le 3 _
      · intro src hsrc
        rcases List.mem_map.mp hsrc with ⟨chunk, -, rfl⟩
        rw [String.length_append, String.length_mk, List.length_take]
        have h200 : min 200 chunk.content.length ≤ 200 := Nat.min_le_left _ _
        have h3 : ellipsis.length = 3 := rfl
        omega
    | error e => simp only [] at hok; cases hok

/-- Witness for C4 at a concrete store holding one chunk. -/
theorem ragQuery_sources_witness :
    ∃ srcs calls,
      (ragQuery (fun _ => .ok "answer") (fun _ cs => cs) 5
          ⟨[], [("d", [⟨['x'], []⟩])]⟩ "d" "q" .student []).2
        = .ok "answer" srcs calls
      ∧ srcs.length ≤ 3 ∧ ∀ src ∈ srcs, src.length ≤ 203 := by
  have H := ragQuery_sources (fun _ => .ok "answer") (fun _ cs => cs) 5
    ⟨[], [("d", [⟨['x'], []⟩])]⟩ "d" "q" .student [] (by decide)
    "answer" ["x" ++ ellipsis]
    [⟨primaryModel, 3/10, 2048, 9/10,
      buildMessages "q" [⟨['x'], []⟩] .student []⟩] rfl
  exact ⟨_, _, rfl, H.2.1, H.2.2⟩

/-- Claim C5: when the primary-model request fails, exactly one retry is made
against the fallback model with identical parameters (temperature 3/10, 2048
max tokens, top-p 9/10) and the same message sequence — the trace holds
exactly those two requests in order; a fallback success is returned and a
fallback failure raises the generation failure carrying the primary error. -/
theorem generate_answer_fallback (call : LLMCall → Except String String)
    (q : String) (ch : List StoredChunk) (lv : ExplanationLevel)
    (hist : List Message) (e : String)
    (hfail : call ⟨primaryModel, 3/10, 2048, 9/10, buildMessages q ch lv hist⟩
      = .error e) :
    (generate_answer call q ch lv hist).2 =
        [⟨primaryModel, 3/10, 2048, 9/10, buildMessages q ch lv hist⟩,
          ⟨fallbackModel, 3/10, 2048, 9/10, buildMessages q ch lv hist⟩]
      ∧ (∀ a, call ⟨fallbackModel, 3/10, 2048, 9/10, buildMessages q ch lv hist⟩
            = .ok a →
          (generate_answer call q ch lv hist).1 = .ok a)
      ∧ (∀ e2, call ⟨fallbackModel, 3/10, 2048, 9/10, buildMessages q ch lv hist⟩
            = .error e2 →
          (generate_answer call q ch lv hist).1 =
            .error ("Failed to generate answer: " ++ e)) := by
  have hne : primaryModel ≠ fallbackModel := by decide
  refine ⟨?_, ?_, ?_⟩
  · simp only [generate_answer, hfail]
    rw [if_pos hne]
    cases h2 : call ⟨fallbackModel, 3/10, 2048, 9/10, buildMessages q ch lv hist⟩ <;>
      rfl
  · intro a h2
    simp only [generate_answer, hfail]
    rw [if_pos hne, h2]
  · intro e2 h2
    simp only [generate_answer, hfail]
    rw [if_pos hne, h2]

/-- Witness for C5 with a provider that fails on both models. -/
theorem generate_answer_fallback_witness :
    (generate_answer (fun c => .error ("fail-" ++ c.model)) "q" [] .student []).2 =
        [⟨primaryModel, 3/10, 2048, 9/10, buildMessages "q" [] .student []⟩,
          ⟨fallbackModel, 3/10, 2048, 9/10, buildMessages "q" [] .student []⟩]
      ∧ (generate_answer (fun c => .error ("fail-" ++ c.model)) "q" [] .student []).1 =
          .error ("Failed to generate answer: " ++ ("fail-" ++ primaryModel)) := by
  have H := generate_answer_fallback (fun c => .error ("fail-" ++ c.model)) "q" []
    .student [] ("fail-" ++ primaryModel) rfl
  exact ⟨H.1, H.2.2 ("fail-" ++ fallbackModel) rfl⟩

/-- Claim C6: every request issued to the generator contains, between the
system prompt and the final user turn, exactly the last min(5, n) turns of
the caller-supplied n-turn history, verbatim and in order (a suffix of the
history). -/
theorem generate_answer_history_cap (call : LLMCall → Except String String)
    (q : String) (ch : List StoredChunk) (lv : ExplanationLevel)
    (hist : List Message) (c : LLMCall)
    (hc : c ∈ (generate_answer call q ch lv hist).2) :
    (c.messages.drop 1).dropLast = hist.drop (hist.length - 5)
      ∧ hist.drop (hist.length - 5) <:+ hist
      ∧ (hist.drop (hist.length - 5)).length = min 5 hist.length := by
  have hm := generate_answer_calls_messages call q ch lv hist c hc
  refine ⟨?_, List.drop_suffix _ _, ?_⟩
  · rw [hm]
    simp only [buildMessages, List.drop_one, List.tail_cons]
    exact List.dropLast_concat
  · rw [List.length_drop]
    omega

/-- Witness for C6: a 6-turn history forwards only its last 5 turns. -/
theorem generate_answer_history_cap_witness :
    ((⟨primaryModel, 3/10, 2048, 9/10,
        buildMessages "q" [] .student
          [⟨"user", "1"⟩, ⟨"assistant", "2"⟩, ⟨"user", "3"⟩,
            ⟨"assistant", "4"⟩, ⟨"user", "5"⟩, ⟨"assistant", "6"⟩]⟩ : LLMCall)
      ∈ (generate_answer (fun _ => .ok "a") "q" [] .student
          [⟨"user", "1"⟩, ⟨"assistant", "2"⟩, ⟨"user", "3"⟩,
            ⟨"assistant", "4"⟩, ⟨"user", "5"⟩, ⟨"assistant", "6"⟩]).2)
      ∧ (((⟨primaryModel, 3/10, 2048, 9/10,
            buildMessages "q" [] .student
              [⟨"user", "1"⟩, ⟨"assistant", "2"⟩, ⟨"user", "3"⟩,
                ⟨"assistant", "4"⟩, ⟨"user", "5"⟩, ⟨"assistant", "6"⟩]⟩ :
              LLMCall).messages.drop 1).dropLast
          = [⟨"assistant", "2"⟩, ⟨"user", "3"⟩, ⟨"assistant", "4"⟩,
              ⟨"user", "5"⟩, ⟨"assistant", "6"⟩]) := by
  refine ⟨List.mem_singleton.mpr rfl, ?_⟩
  have H := generate_answer_history_cap (fun _ => .ok "a") "q" [] .student
    [⟨"user", "1"⟩, ⟨"assistant", "2"⟩, ⟨"user", "3"⟩,
      ⟨"assistant", "4"⟩, ⟨"user", "5"⟩, ⟨"assistant", "6"⟩] _
    (List.mem_singleton.mpr rfl)
  exact H.1

/-- Claim C10: searching a document id with no collection creates an empty
collection as a side effect: the search returns no results, the resulting
state maps the id to an empty collection, and a subsequent delete of this
never-uploaded id returns 204 success rather than 404 not-found. -/
theorem vsSearch_creates_collection
    (rank : String → List StoredChunk → List StoredChunk)
    (st : VSState) (d : String) (q : String) (topK : Nat)
    (hwf : WFStore st) (hnone : alookup st.client d = none) :
    (vsSearch rank st d q topK).2 = []
      ∧ alookup (vsSearch rank st d q topK).1.client d = some []
      ∧ (delete_endpoint (vsSearch rank st d q topK).1 d).2 = 204 := by
  have hcache : d ∉ st.cache := by
    intro hd
    have := hwf.1 d hd
    rw [hnone] at this
    cases this
  unfold vsSearch create_collection
  rw [if_neg hcache, hnone]
  refine ⟨by simp, by simp [alookup], ?_⟩
  unfold delete_endpoint delete_document
  simp [alookup]

/-- Witness for C10 at the empty store. -/
theorem vsSearch_creates_collection_witness :
    (vsSearch (fun _ cs => cs) ⟨[], []⟩ "ghost" "q" 5).2 = []
      ∧ alookup (vsSearch (fun _ cs => cs) ⟨[], []⟩ "ghost" "q" 5).1.client "ghost"
          = some []
      ∧ (delete_endpoint (vsSearch (fun _ cs => cs) ⟨[], []⟩ "ghost" "q" 5).1
          "ghost").2 = 204 :=
  vsSearch_creates_collection (fun _ cs => cs) ⟨[], []⟩ "ghost" "q" 5
    ⟨fun id h => absurd h (List.not_mem_nil id), List.nodup_nil⟩ rfl

/-- Claim C2: when the extracted text is empty or whitespace-only, or when
chunking it yields zero chunks, the upload fails with the 400 client error
before anything is indexed (no success outcome carrying chunks is produced).
The zero-chunks condition in fact implies whitespace-only text, so the
unreachable 500 branch of the source is never taken. -/
theorem upload_rejects_unchunkable (text : List Char)
    (h : pyStrip text = [] ∨ chunk_text text 1000 200 = []) :
    uploadAfterExtract text = .clientError 400 := by
  unfold uploadAfterExtract
  rcases h with h | h
  · rw [if_pos h]
  · by_cases hp : pyStrip text = []
    · rw [if_pos hp]
    · exact absurd h (chunk_text_ne_nil text 1000 200 hp)

/-- Witness for C2 at a concrete whitespace-only extracted text. -/
theorem upload_rejects_unchunkable_witness :
    uploadAfterExtract [' '] = .clientError 400 :=
  upload_rejects_unchunkable [' '] (Or.inl (by decide))

/-- Claim C8: deleting a document id absent from the store returns the 404
not-found status and leaves the state unchanged; deleting a present one
returns 204, removes its collection, and makes subsequent queries for that id
short-circuit with the fixed no-relevant-information answer. -/
theorem delete_semantics (st : VSState) (id : String) (hwf : WFStore st) :
    (alookup st.client id = none → delete_endpoint st id = (st, 404))
      ∧ (∀ entries, alookup st.client id = some entries →
          (delete_endpoint st id).2 = 204
            ∧ alookup (delete_endpoint st id).1.client id = none
            ∧ ∀ call rank topK q lv hist,
                (ragQuery call rank topK (delete_endpoint st id).1 id q lv
                    hist).2 = .ok noRelevantMsg [] []) := by
  constructor
  · intro hnone
    have hid : id ∉ st.cache := by
      intro hmem
      have := hwf.1 id hmem
      rw [hnone] at this
      cases this
    unfold delete_endpoint delete_document
    rw [hnone]
    simp only []
    rw [List.erase_of_not_mem hid]
    rfl
  · intro entries hsome
    have herase : alookup (delete_endpoint st id).1.client id = none := by
      unfold delete_endpoint delete_document
      rw [hsome]
      exact alookup_eraseKey_self st.client id hwf.2
    refine ⟨?_, herase, ?_⟩
    · unfold delete_endpoint delete_document
      rw [hsome]
      rfl
    · intro call rank topK q lv hist
      exact ragQuery_noInfo call rank topK _ id q lv hist (Or.inl herase)

/-- Witness for C8 at a concrete one-document store: deleting a missing id is
a no-op 404, deleting the present id gives 204 and empties later queries. -/
theorem delete_semantics_witness :
    delete_endpoint ⟨["d"], [("d", [⟨['x'], []⟩])]⟩ "ghost"
        = (⟨["d"], [("d", [⟨['x'], []⟩])]⟩, 404)
      ∧ (delete_endpoint ⟨["d"], [("d", [⟨['x'], []⟩])]⟩ "d").2 = 204
      ∧ alookup (delete_endpoint ⟨["d"], [("d", [⟨['x'], []⟩])]⟩ "d").1.client
          "d" = none
      ∧ (ragQuery (fun _ => .ok "a") (fun _ cs => cs) 5
          (delete_endpoint ⟨["d"], [("d", [⟨['x'], []⟩])]⟩ "d").1 "d" "q"
          .student []).2 = .ok noRelevantMsg [] [] := by
  have hwf : WFStore ⟨["d"], [("d", [⟨['x'], []⟩])]⟩ := by
    constructor
    · intro i hi

      rcases List.mem_singleton.mp hi with rfl
      decide
    · simp
  have H := (delete_semantics ⟨["d"], [("d", [⟨['x'], []⟩])]⟩ "d" hwf).2
    [⟨['x'], []⟩] rfl
  exact ⟨(delete_semantics ⟨["d"], [("d", [⟨['x'], []⟩])]⟩ "ghost" hwf).1 rfl,
    H.1, H.2.1, H.2.2 (fun _ => .ok "a") (fun _ cs => cs) 5 "q" .student []⟩

/-! ## The chunk-size bound of chunk_text -/

/-- Dropping while a predicate fails on every member is the identity. -/
lemma dropWhile_eq_self_of_none {p : Char → Bool} {l : List Char}
    (h : ∀ c ∈ l, p c = false) : l.dropWhile p = l := by
  cases l with
  | nil => rfl
  | cons a t =>
    rw [List.dropWhile_cons, if_neg]
    simp [h a (List.mem_cons_self _ _)]

/-- Stripping a list with no whitespace at all is the identity. -/
lemma pyStrip_of_noWs {l : List Char} (h : ∀ c ∈ l, isPyWs c = false) :
    pyStrip l = l := by
  unfold pyStrip rstripWs
  rw [dropWhile_eq_self_of_none h,
    dropWhile_eq_self_of_none (fun c hc => h c (List.mem_reverse.mp hc)),
    List.reverse_reverse]

/-- Splitting a text with no newline yields the one-piece list
(bounded-length helper). -/
lemma splitDoubleNewline_no_nl_aux :
    ∀ (n : Nat) (l : List Char), l.length ≤ n → '\n' ∉ l →
      splitDoubleNewline l = [l] := by
  intro n
  induction n with
  | zero =>
    intro l hl _
    rw [List.length_eq_zero.mp (Nat.le_zero.mp hl)]
    rfl
  | succ n ih =>
    intro l hl hnl
    cases l with
    | nil => rfl
    | cons c l2 =>
      cases l2 with
      | nil => rfl
      | cons d rest =>
        rw [splitDoubleNewline,
          if_neg (fun hab => hnl (by rw [hab.1]; exact List.mem_cons_self _ _)),
          ih (d :: rest) (by simp at hl ⊢; omega)
            (fun h => hnl (List.mem_cons_of_mem _ h))]
        rfl

/-- Splitting a text with no newline yields the one-piece list. -/
lemma splitDoubleNewline_no_nl {l : List Char} (hnl : '\n' ∉ l) :
    splitDoubleNewline l = [l] :=
  splitDoubleNewline_no_nl_aux l.length l le_rfl hnl

/-- The sentence scan walks over a whitespace-free block in one go, moving it
into the accumulator. -/
lemma sentSplitAux_append {l : List Char} (rest cur : List Char)
    (h : ∀ c ∈ l, isPyWs c = false) :
    sentSplitAux (l ++ rest) cur = sentSplitAux rest (l.reverse ++ cur) := by
  induction l generalizing cur with
  | nil => simp
  | cons a t ih =>
    rw [List.cons_append, sentSplitAux.eq_def]
    simp only []
    rw [show isPyWs a = false from h a (List.mem_cons_self _ _)]
    simp only [Bool.false_and, Bool.false_eq_true, if_false]
    rw [ih (a :: cur) (fun c hc => h c (List.mem_cons_of_mem _ hc))]
    simp [List.append_assoc]

/-- One splitting step of the sentence scan: whitespace right after a
sentence terminator flushes the accumulated piece. -/
lemma sentSplitAux_step_split (a : Char) (rest : List Char) (p : Char)
    (cur : List Char) (hws : isPyWs a = true) (hend : isSentEnd p = true) :
    sentSplitAux (a :: rest) (p :: cur) =
      (p :: cur).reverse :: sentSplitAux (rest.dropWhile isPyWs) [] := by
  rw [sentSplitAux.eq_def]
  simp [hws, hend]

/-- No character of the 600-character sentence is whitespace. -/
lemma cexS1_noWs : ∀ c ∈ cexS1, isPyWs c = false := by
  intro c hc
  unfold cexS1 at hc
  rcases List.mem_append.mp hc with h | h
  · rw [(List.mem_replicate.mp h).2]
    decide
  · rw [List.mem_singleton.mp h]
    decide

/-- No character of the 400-character sentence is whitespace. -/
lemma cexS2_noWs : ∀ c ∈ cexS2, isPyWs c = false := by
  intro c hc
  unfold cexS2 at hc
  rcases List.mem_append.mp hc with h | h
  · rw [(List.mem_replicate.mp h).2]
    decide
  · rw [List.mem_singleton.mp h]
    decide

lemma cexS1_length : cexS1.length = 600 := by
  unfold cexS1
  rw [List.length_append, List.length_replicate]
  rfl

lemma cexS2_length : cexS2.length = 400 := by
  unfold cexS2
  rw [List.length_append, List.length_replicate]
  rfl

lemma cexC1_length : cexC1.length = 1001 := by
  unfold cexC1
  rw [List.length_append, List.length_append, cexS1_length, cexS2_length]
  rfl

lemma cexS1_ne_nil : cexS1 ≠ [] := by
  intro h
  have h2 := congrArg List.length h
  rw [cexS1_length] at h2
  cases h2

lemma cexC1_ne_nil : cexC1 ≠ [] := by
  intro h
  have h2 := congrArg List.length h
  rw [cexC1_length] at h2
  cases h2

/-- Every character of the counterexample text is non-whitespace except the
single joining space. -/
lemma cexC1_mem_cases {c : Char} (hc : c ∈ cexC1) :
    c ∈ cexS1 ∨ c = ' ' ∨ c ∈ cexS2 := by
  unfold cexC1 at hc
  rcases List.mem_append.mp hc with h2 | h2
  · rcases List.mem_append.mp h2 with h3 | h3
    · exact Or.inl h3
    · exact Or.inr (Or.inl (List.mem_singleton.mp h3))
  · exact Or.inr (Or.inr h2)

/-- The counterexample text contains no newline. -/
lemma cexC1_no_nl : '\n' ∉ cexC1 := by
  intro h
  rcases cexC1_mem_cases h with h2 | h2 | h2
  · cases cexS1_noWs '\n' h2
  · cases h2
  · cases cexS2_noWs '\n' h2

/-- The counterexample text strips to itself: it starts and ends with
non-whitespace characters. -/
lemma cexC1_pyStrip : pyStrip cexC1 = cexC1 := by
  have hcons : cexC1
      = 'a' :: (((List.replicate 598 'a' ++ ['.']) ++ [' ']) ++ cexS2) := by
    unfold cexC1 cexS1
    rw [show (599 : Nat) = 598 + 1 from rfl, List.replicate_succ,
      List.cons_append, List.cons_append, List.cons_append]
  have h1 : cexC1.dropWhile isPyWs = cexC1 := by
    rw [hcons, List.dropWhile_cons, if_neg (by decide)]
  have hrev2 : cexS2.reverse = '.' :: (List.replicate 399 'b').reverse := by
    unfold cexS2
    rw [List.reverse_append, List.reverse_singleton, List.singleton_append]
  have hcons2 : cexC1.reverse
      = '.' :: ((List.replicate 399 'b').reverse ++ ([' '] ++ cexS1.reverse)) := by
    unfold cexC1
    rw [List.reverse_append, List.reverse_append, hrev2, List.cons_append,
      List.reverse_singleton]
  unfold pyStrip rstripWs
  rw [h1, hcons2, List.dropWhile_cons, if_neg (by decide), ← hcons2,
    List.reverse_reverse]
/-- The sentence scan leaves a whitespace-free text as a single piece. -/
lemma sentSplitAux_noWs_only (l : List Char) (h : ∀ c ∈ l, isPyWs c = false) :
    sentSplitAux l [] = [l] := by
  have h2 := sentSplitAux_append (l := l) [] [] h
  rw [List.append_nil, List.append_nil] at h2
  rw [h2, sentSplitAux, List.reverse_reverse]

/-- The sentence splitter cuts the counterexample text into exactly its two
sentences. -/
lemma split_sentences_cexC1 : split_sentences cexC1 = [cexS1, cexS2] := by
  have hassoc : cexC1 = cexS1 ++ ([' '] ++ cexS2) := by
    unfold cexC1
    rw [List.append_assoc]
  have hrev1 : cexS1.reverse = '.' :: (List.replicate 599 'a').reverse := by
    unfold cexS1
    rw [List.reverse_append, List.reverse_singleton, List.singleton_append]
  have h1 : sentSplitAux cexC1 [] = [cexS1, cexS2] := by
    rw [hassoc, sentSplitAux_append ([' '] ++ cexS2) [] cexS1_noWs,
      List.append_nil, hrev1, List.singleton_append]
    rw [sentSplitAux_step_split ' ' cexS2 '.' ((List.replicate 599 'a').reverse)
      (by decide) (by decide)]
    rw [show ('.' :: (List.replicate 599 'a').reverse).reverse = cexS1 by
      rw [← hrev1, List.reverse_reverse]]
    rw [dropWhile_eq_self_of_none cexS2_noWs,
      sentSplitAux_noWs_only cexS2 cexS2_noWs]
  have h2 : cexS1.isEmpty = false := by
    cases hx : cexS1 with
    | nil => exact absurd hx cexS1_ne_nil
    | cons a t => rfl
  have h3 : cexS2.isEmpty = false := by
    cases hx : cexS2 with
    | nil =>
      exfalso
      have h4 := congrArg List.length hx
      rw [cexS2_length] at h4
      cases h4
    | cons a t => rfl
  unfold split_sentences
  rw [h1, List.map_cons, List.map_cons, List.map_nil,
    pyStrip_of_noWs cexS1_noWs, pyStrip_of_noWs cexS2_noWs]
  simp [h2, h3]

/-- The paragraph stage keeps the counterexample text as one chunk. -/
lemma paragraphChunks_cexC1 : paragraphChunks cexC1 1000 200 = [cexC1] := by
  unfold paragraphChunks
  rw [splitDoubleNewline_no_nl cexC1_no_nl]
  rw [paraLoop]
  have hfin : paraLoop 1000 200 [] cexC1 = [cexC1] := by
    rw [paraLoop, cexC1_pyStrip, if_neg cexC1_ne_nil]
  simp [cexC1_pyStrip, cexC1_ne_nil, hfin]

/-- chunk_text on the counterexample text returns it whole: the two sentences
of 600 and 400 characters rejoin with a single space into one 1001-character
chunk, because the flush test ignores the joining space. -/
lemma chunk_text_cexC1 : chunk_text cexC1 1000 200 = [cexC1] := by
  unfold chunk_text
  rw [if_neg (by rw [cexC1_pyStrip]; exact cexC1_ne_nil)]
  rw [paragraphChunks_cexC1]
  rw [List.flatMap_cons, List.flatMap_nil, List.append_nil]
  have hbig : ¬ (cexC1.length ≤ 1000) := by
    rw [cexC1_length]
    omega
  rw [if_neg hbig, split_sentences_cexC1]
  rw [sentLoop, if_neg (by simp)]
  have htemp1 : ([] : List Char)
      ++ (if ([] : List Char) = [] then [] else [' ']) ++ cexS1 = cexS1 := by
    rw [if_pos rfl]
    rfl
  rw [htemp1]
  have hnoflush : ¬ (cexS1 ≠ [] ∧ 1000 < cexS1.length + cexS2.length) := by
    rw [cexS1_length, cexS2_length]
    simp
  rw [sentLoop, if_neg hnoflush]
  have htemp2 : cexS1 ++ (if cexS1 = [] then ([] : List Char) else [' '])
      ++ cexS2 = cexC1 := by
    rw [if_neg cexS1_ne_nil]
    unfold cexC1
    rfl
  rw [htemp2]
  rw [sentLoop, cexC1_pyStrip, if_neg cexC1_ne_nil]

/-- Claim C1 is falsified at cexC1: with the default parameters the chunker
emits a 1001-character chunk that exceeds chunkSize = 1000 and is not a single
sentence (it splits into two sentences), because the greedy sentence join
tests the combined length before adding the one-character joining space. -/
theorem chunk_oversize_counterexample :
    ∃ c ∈ chunk_text cexC1 1000 200,
      1000 < c.length ∧ split_sentences c ≠ [c] := by
  refine ⟨cexC1, by rw [chunk_text_cexC1]; exact List.mem_singleton_self _,
    by rw [cexC1_length]; omega, ?_⟩
  rw [split_sentences_cexC1]
  intro hEq
  have h2 := congrArg List.length hEq
  simp at h2

/-- The sentence loop only emits chunks of length at most chunkSize + 1, or
whole stripped sentences; the invariant tracks the running buffer. -/
lemma sentLoop_bound (cs : Nat) (S : List (List Char)) :
    ∀ (sents : List (List Char)) (temp : List Char),
      (∀ x ∈ sents, x ∈ S) →
      (temp.length ≤ cs + 1 ∨ ∃ x ∈ S, temp = x) →
      ∀ c ∈ sentLoop cs sents temp,
        c.length ≤ cs + 1 ∨ ∃ x ∈ S, c = pyStrip x := by
  intro sents
  induction sents with
  | nil =>
    intro temp _ hinv c hc
    rw [sentLoop] at hc
    split at hc
    · cases hc
    · rcases List.mem_singleton.mp hc with rfl
      rcases hinv with h | ⟨x, hx, heq⟩
      · exact Or.inl (le_trans (List.Sublist.length_le (pyStrip_sublist temp)) h)
      · exact Or.inr ⟨x, hx, by rw [heq]⟩
  | cons s rest ih =>
    intro temp hsub hinv c hc
    rw [sentLoop] at hc
    by_cases hfl : temp ≠ [] ∧ cs < temp.length + s.length
    · rw [if_pos hfl] at hc
      rcases List.mem_cons.mp hc with heq2 | hc2
      · rcases hinv with h | ⟨x, hx, heq⟩
        · refine Or.inl ?_
          rw [heq2]
          exact le_trans (List.Sublist.length_le (pyStrip_sublist temp)) h
        · exact Or.inr ⟨x, hx, by rw [heq2, heq]⟩
      · exact ih s (fun x hx => hsub x (List.mem_cons_of_mem _ hx))
          (Or.inr ⟨s, hsub s (List.mem_cons_self _ _), rfl⟩) c hc2
    · rw [if_neg hfl] at hc
      refine ih _ (fun x hx => hsub x (List.mem_cons_of_mem _ hx)) ?_ c hc
      by_cases ht : temp = []
      · subst ht
        refine Or.inr ⟨s, hsub s (List.mem_cons_self _ _), ?_⟩
        rw [if_pos rfl]
        rfl
      · left
        have hle : temp.length + s.length ≤ cs := by
          rcases Nat.lt_or_ge cs (temp.length + s.length) with hlt | hge
          · exact absurd ⟨ht, hlt⟩ hfl
          · exact hge
        rw [if_neg ht, List.length_append, List.length_append,
          show ([' '] : List Char).length = 1 from rfl]
        omega

/-- Claim C1 as amended: with the default parameters, every chunk produced by
chunk_text has length at most chunkSize + 1 = 1001 (the greedy sentence join
tests the combined length before adding the one-character joining space), or
is a whole stripped sentence of an oversized paragraph-stage chunk, emitted
verbatim. -/
theorem chunk_length_bound (text : List Char) (c : List Char)
    (hc : c ∈ chunk_text text 1000 200) :
    c.length ≤ 1001
      ∨ ∃ ch ∈ paragraphChunks text 1000 200,
          ∃ s ∈ split_sentences ch, c = pyStrip s := by
  unfold chunk_text at hc
  split at hc
  · cases hc
  · rcases List.mem_flatMap.mp hc with ⟨ch, hch, hcimg⟩
    by_cases hlen : ch.length ≤ 1000
    · rw [if_pos hlen] at hcimg
      rcases List.mem_singleton.mp hcimg with rfl
      exact Or.inl (by omega)
    · rw [if_neg hlen] at hcimg
      rcases sentLoop_bound 1000 (split_sentences ch) (split_sentences ch) []
          (fun x hx => hx) (Or.inl (by simp)) c hcimg with h | ⟨s, hs, heq⟩
      · exact Or.inl h
      · exact Or.inr ⟨ch, hch, s, hs, heq⟩

/-- Witness for the amended C1 at a small concrete text. -/
theorem chunk_length_bound_witness :
    (['h', 'i'] : List Char).length ≤ 1001
      ∨ ∃ ch ∈ paragraphChunks ['h', 'i'] 1000 200,
          ∃ s ∈ split_sentences ch, ['h', 'i'] = pyStrip s :=
  chunk_length_bound ['h', 'i'] ['h', 'i'] (by decide)

/-! ## The overlap-prefix relation between consecutive paragraph-stage
chunks -/

/-- Dropping twice is dropping once. -/
lemma dropWhile_idem (p : Char → Bool) (l : List Char) :
    (l.dropWhile p).dropWhile p = l.dropWhile p := by
  cases hx : l.dropWhile p with
  | nil => rfl
  | cons a t =>
    have hne : l.dropWhile p ≠ [] := by rw [hx]; simp
    have hh := List.head_dropWhile_not p l hne
    have hh2 : (l.dropWhile p).head hne = a := by simp [hx]
    rw [hh2] at hh
    rw [List.dropWhile_cons, hh]
    simp

/-- Right stripping is idempotent. -/
lemma rstripWs_idem (l : List Char) : rstripWs (rstripWs l) = rstripWs l := by
  unfold rstripWs
  rw [List.reverse_reverse, dropWhile_idem]

/-- The stripped buffer is right-stripped. -/
lemma rstripWs_pyStrip (l : List Char) : rstripWs (pyStrip l) = pyStrip l := by
  unfold pyStrip
  rw [rstripWs_idem]

/-- Appending to the left of a non-empty right-stripped list keeps it
right-stripped. -/
lemma rstripWs_append {a b : List Char} (hb : b ≠ []) (hrb : rstripWs b = b) :
    rstripWs (a ++ b) = a ++ b := by
  have hb2 : b.reverse.dropWhile isPyWs = b.reverse := by
    have h2 := congrArg List.reverse hrb
    unfold rstripWs at h2
    rwa [List.reverse_reverse] at h2
  unfold rstripWs
  rw [List.reverse_append, List.dropWhile_append, hb2,
    if_neg (by simp [hb]), ← List.reverse_append, List.reverse_reverse]

/-- A non-empty right-stripped list left-strips to a non-empty list. -/
lemma dropWhile_ne_nil_of_rstrip {l : List Char} (hne : l ≠ [])
    (hrs : rstripWs l = l) : l.dropWhile isPyWs ≠ [] := by
  intro hnil
  rw [List.dropWhile_eq_nil_iff] at hnil
  have h2 : rstripWs l = [] := by
    unfold rstripWs
    rw [List.dropWhile_eq_nil_iff.mpr (fun c hc => hnil c (List.mem_reverse.mp hc))]
    rfl
  rw [hrs] at h2
  exact hne h2

/-- A prefix of a list that survives left stripping also survives it. -/
lemma prefix_dropWhile_eq_self {p : Char → Bool} {x y : List Char}
    (hx : x.dropWhile p = x) (hpre : y <+: x) : y.dropWhile p = y := by
  cases y with
  | nil => rfl
  | cons a t =>
    cases x with
    | nil =>
      rcases hpre with ⟨s, hs⟩
      cases hs
    | cons b u =>
      have hab : a = b := by
        rcases hpre with ⟨s, hs⟩
        rw [List.cons_append] at hs
        exact (List.cons.injEq _ _ _ _ ▸ hs).1
      have hpb : p b = false := by
        cases hpbv : p b with
        | false => rfl
        | true =>
          exfalso
          rw [List.dropWhile_cons, if_pos hpbv] at hx
          have h2 := congrArg List.length hx
          have h3 := (List.dropWhile_suffix (l := u) p).length_le
          rw [h2] at h3
          simp at h3
      rw [List.dropWhile_cons, hab, hpb]
      simp

/-- Stripping a right-stripped buffer only removes leading whitespace. -/
lemma pyStrip_eq_dropWhile_of_rstrip {l : List Char}
    (hrs : rstripWs l = l) : pyStrip l = l.dropWhile isPyWs := by
  have hxrev : (l.reverse).dropWhile isPyWs = l.reverse := by
    have h2 := congrArg List.reverse hrs
    unfold rstripWs at h2
    rwa [List.reverse_reverse] at h2
  have hpre : (l.dropWhile isPyWs).reverse <+: l.reverse :=
    (List.dropWhile_suffix isPyWs).reverse
  unfold pyStrip rstripWs
  rw [prefix_dropWhile_eq_self hxrev hpre, List.reverse_reverse]

/-- When the left part keeps a non-whitespace character, left stripping an
append only strips inside the left part. -/
lemma dropWhile_append_of_ne_nil {p : Char → Bool} {a : List Char}
    (b : List Char) (ha : a.dropWhile p ≠ []) :
    (a ++ b).dropWhile p = a.dropWhile p ++ b := by
  rw [List.dropWhile_append, if_neg (by simp [ha])]

/-- Taking the last k characters of the left-stripped buffer or of the buffer
itself gives the same result once leading whitespace is dropped again. -/
lemma dropWhile_lastN (ov : Nat) {l : List Char}
    (_hl : l.dropWhile isPyWs ≠ []) :
    (lastN ov (l.dropWhile isPyWs)).dropWhile isPyWs
      = (lastN ov l).dropWhile isPyWs := by
  have hsplit := List.takeWhile_append_dropWhile isPyWs l
  have hlen : l.length = (l.takeWhile isPyWs).length + (l.dropWhile isPyWs).length := by
    conv_lhs => rw [← hsplit]
    rw [List.length_append]
  by_cases hov : ov ≤ (l.dropWhile isPyWs).length
  · have h1 : lastN ov l = lastN ov (l.dropWhile isPyWs) := by
      unfold lastN
      conv_lhs => rw [← hsplit]
      rw [List.drop_append_eq_append_drop]
      have e1 : (l.takeWhile isPyWs ++ l.dropWhile isPyWs).length - ov
          = l.length - ov := by rw [hsplit]
      rw [e1, List.drop_eq_nil_of_le (by omega), List.nil_append]
      congr 1
      omega
    rw [h1]
  · have h2 : lastN ov (l.dropWhile isPyWs) = l.dropWhile isPyWs := by
      unfold lastN
      rw [Nat.sub_eq_zero_of_le (by omega), List.drop_zero]
    have h3 : lastN ov l
        = (l.takeWhile isPyWs).drop (l.length - ov) ++ l.dropWhile isPyWs := by
      unfold lastN
      conv_lhs => rw [← hsplit]
      rw [List.drop_append_eq_append_drop]
      have e1 : (l.takeWhile isPyWs ++ l.dropWhile isPyWs).length - ov
          = l.length - ov := by rw [hsplit]
      have e2 : l.length - ov - (l.takeWhile isPyWs).length = 0 := by omega
      rw [e1, e2, List.drop_zero]
    have hwall : ((l.takeWhile isPyWs).drop (l.length - ov)).dropWhile isPyWs
        = [] := by
      rw [List.dropWhile_eq_nil_iff]
      intro c hc
      exact List.mem_takeWhile_imp
        (List.Sublist.mem hc ((List.drop_suffix _ _).sublist))
    rw [h2, h3, List.dropWhile_append, hwall]
    simp [dropWhile_idem]

/-- The head chunk eventually produced by the paragraph loop extends the
left-stripped incoming buffer: the buffer only grows at its right end until
it is flushed (or emitted at the end), stripped of leading whitespace. -/
lemma paraLoop_head_prefix (cs ov : Nat) :
    ∀ (ps : List (List Char)) (current : List Char),
      current ≠ [] → rstripWs current = current →
      ∃ h t, paraLoop cs ov ps current = h :: t
        ∧ current.dropWhile isPyWs <+: h := by
  intro ps
  induction ps with
  | nil =>
    intro current hne hrs
    rw [paraLoop, pyStrip_eq_dropWhile_of_rstrip hrs,
      if_neg (dropWhile_ne_nil_of_rstrip hne hrs)]
    exact ⟨_, [], rfl, List.prefix_refl _⟩
  | cons p rest ih =>
    intro current hne hrs
    rw [paraLoop]
    by_cases h1 : pyStrip p = []
    · rw [if_pos h1]
      exact ih current hne hrs
    · rw [if_neg h1]
      have hprs : rstripWs (pyStrip p) = pyStrip p := rstripWs_pyStrip p
      by_cases h2 : current ≠ [] ∧ cs < current.length + (pyStrip p).length
      · rw [if_pos h2]
        refine ⟨pyStrip current, _, rfl, ?_⟩
        rw [pyStrip_eq_dropWhile_of_rstrip hrs]
      · rw [if_neg h2, if_neg hne]
        have hLne : current.dropWhile isPyWs ≠ [] :=
          dropWhile_ne_nil_of_rstrip hne hrs
        obtain ⟨h, t, heq, hpre⟩ := ih (current ++ ['\n', '\n'] ++ pyStrip p)
          (by simp [h1]) (rstripWs_append h1 hprs)
        refine ⟨h, t, heq, ?_⟩
        have hstep : ((current ++ ['\n', '\n']) ++ pyStrip p).dropWhile isPyWs
            = ((current.dropWhile isPyWs ++ ['\n', '\n']) ++ pyStrip p) := by
          have hinner : (current ++ ['\n', '\n']).dropWhile isPyWs
              = current.dropWhile isPyWs ++ ['\n', '\n'] :=
            dropWhile_append_of_ne_nil _ hLne
          rw [dropWhile_append_of_ne_nil _ (by rw [hinner]; simp), hinner]
        rw [hstep] at hpre
        refine List.IsPrefix.trans ?_ hpre
        rw [List.append_assoc]
        exact List.prefix_append _ _

/-- Consecutive chunks of the paragraph loop with positive overlap are
linked: the last overlap characters of a chunk, stripped of leading
whitespace, are a prefix of the next chunk. -/
lemma paraLoop_overlap_chain (cs ov : Nat) (hov : 0 < ov) :
    ∀ (ps : List (List Char)) (current : List Char),
      (current = [] ∨ (current ≠ [] ∧ rstripWs current = current)) →
      List.Chain' (fun c₁ c₂ => (lastN ov c₁).dropWhile isPyWs <+: c₂)
        (paraLoop cs ov ps current) := by
  intro ps
  induction ps with
  | nil =>
    intro current _
    rw [paraLoop]
    split
    · exact List.chain'_nil
    · exact List.chain'_singleton _
  | cons p rest ih =>
    intro current hinv
    rw [paraLoop]
    by_cases h1 : pyStrip p = []
    · rw [if_pos h1]
      exact ih current hinv
    · rw [if_neg h1]
      have hprs : rstripWs (pyStrip p) = pyStrip p := rstripWs_pyStrip p
      by_cases h2 : current ≠ [] ∧ cs < current.length + (pyStrip p).length
      · rw [if_pos h2, if_pos ⟨hov, h2.1⟩]
        have hcne : current ≠ [] := h2.1
        have hcrs : rstripWs current = current := by
          rcases hinv with rfl | ⟨-, h⟩
          · exact absurd rfl hcne
          · exact h
        have hseed_ne : lastN ov current ++ ['\n', '\n'] ++ pyStrip p ≠ [] := by
          simp [h1]
        have hseed_rs :
            rstripWs (lastN ov current ++ ['\n', '\n'] ++ pyStrip p)
              = lastN ov current ++ ['\n', '\n'] ++ pyStrip p :=
          rstripWs_append h1 hprs
        obtain ⟨h0, t0, heq0, hpre0⟩ :=
          paraLoop_head_prefix cs ov rest _ hseed_ne hseed_rs
        rw [heq0]
        refine List.Chain'.cons ?_ ?_
        · rw [pyStrip_eq_dropWhile_of_rstrip hcrs,
            dropWhile_lastN ov (dropWhile_ne_nil_of_rstrip hcne hcrs)]
          by_cases hx : (lastN ov current).dropWhile isPyWs = []
          · rw [hx]
            exact List.nil_prefix
          · have hstep :
                ((lastN ov current ++ ['\n', '\n']) ++ pyStrip p).dropWhile isPyWs
                  = (((lastN ov current).dropWhile isPyWs ++ ['\n', '\n'])
                      ++ pyStrip p) := by
              have hinner : (lastN ov current ++ ['\n', '\n']).dropWhile isPyWs
                  = (lastN ov current).dropWhile isPyWs ++ ['\n', '\n'] :=
                dropWhile_append_of_ne_nil _ hx
              rw [dropWhile_append_of_ne_nil _ (by rw [hinner]; simp), hinner]
            rw [hstep] at hpre0
            refine List.IsPrefix.trans ?_ hpre0
            rw [List.append_assoc]
            exact List.prefix_append _ _
        · rw [← heq0]
          exact ih _ (Or.inr ⟨hseed_ne, hseed_rs⟩)
      · rw [if_neg h2]
        by_cases h3 : current = []
        · rw [if_pos h3]
          exact ih _ (Or.inr ⟨h1, hprs⟩)
        · rw [if_neg h3]
          exact ih _ (Or.inr ⟨by simp [h1], rstripWs_append h1 hprs⟩)

/-- Claim C7: for every text chunked with positive overlap, consecutive
paragraph-stage chunks are linked: the trailing overlap characters of a
flushed chunk — stripped of the whitespace lost at the paragraph boundary —
are exactly the leading characters of the following chunk. -/
theorem paragraph_overlap_prefix (text : List Char) (chunkSize overlap : Nat)
    (hov : 0 < overlap) :
    List.Chain'
      (fun c₁ c₂ => (lastN overlap c₁).dropWhile isPyWs <+: c₂)
      (paragraphChunks text chunkSize overlap) := by
  unfold paragraphChunks
  exact paraLoop_overlap_chain chunkSize overlap hov (splitDoubleNewline text)
    [] (Or.inl rfl)

/-- Witness for C7 at a concrete two-chunk split. -/
theorem paragraph_overlap_prefix_witness :
    List.Chain'
      (fun c₁ c₂ => (lastN 2 c₁).dropWhile isPyWs <+: c₂)
      (paragraphChunks ['a', 'a', 'a', '\n', '\n', 'b', 'b', 'b'] 4 2) :=
  paragraph_overlap_prefix ['a', 'a', 'a', '\n', '\n', 'b', 'b', 'b'] 4 2
    (by decide)

end PaperPilot
